import Mathlib

/-!
Verification of `piecewisefns/piecewise_linear_1d.py`.

The module analyses piecewise-linear 1d data given as coordinate lists.
We embed the numeric data as lists of rationals (`List ℚ`); the NumPy
primitives the code relies on (`np.diff`, `np.where`, `np.delete`, fancy
index assignment) are rendered as executable list functions below, and each
Python function of the module is translated one-to-one.  Fallible code
(IndexError / ValueError) is rendered with `Option` / `Except`.
-/

namespace Piecewise

/-- `np.diff x`: the list of consecutive differences `x[i+1] - x[i]`. -/
def npdiff : List ℚ → List ℚ
  | a :: b :: t => (b - a) :: npdiff (b :: t)
  | _ => []

/-- `np.where(mask)[0]`: the indices at which a boolean mask holds,
in ascending order. -/
def npWhere (b : List Bool) : List ℕ :=
  (List.range b.length).filter (fun i => b.getD i false)

/-- `np.delete(l, pos)`: remove from `l` the elements at the *positions*
listed in `pos` (out-of-range positions are ignored, as in the NumPy
version contemporary with this code). -/
def npDelete {α : Type} (l : List α) (pos : List ℕ) : List α :=
  (List.range l.length).filterMap (fun i => if i ∈ pos then none else l.get? i)

/-- `has_steps(x)`: `np.any(np.diff(x)==0)`. -/
def has_steps (x : List ℚ) : Bool :=
  (npdiff x).any (fun d => d == 0)

/-- `strictly_increasing(x)`: `np.all(np.diff(x)>0)`. -/
def strictly_increasing (x : List ℚ) : Bool :=
  (npdiff x).all (fun d => decide (0 < d))

/-- `strictly_decreasing(x)`: `np.all(np.diff(x)<0)`. -/
def strictly_decreasing (x : List ℚ) : Bool :=
  (npdiff x).all (fun d => decide (d < 0))

/-- `non_increasing(x)`: `np.all(np.diff(x)<=0)`. -/
def non_increasing (x : List ℚ) : Bool :=
  (npdiff x).all (fun d => decide (d ≤ 0))

/-- `non_decreasing(x)`: `np.all(np.diff(x)>=0)`. -/
def non_decreasing (x : List ℚ) : Bool :=
  (npdiff x).all (fun d => decide (0 ≤ d))

/-- `is_initially_increasing(x)`.  If `x[1] != x[0]` it returns `x[1] > x[0]`;
otherwise it evaluates `np.where(np.diff(x)!=0)[0][0] > 0`, which raises an
IndexError (modelled by `none`) when every difference is zero.  Inputs of
length `< 2` also raise (`x[1]` is out of range). -/
def is_initially_increasing : List ℚ → Option Bool
  | a :: b :: t =>
      if b ≠ a then some (decide (a < b))
      else
        match npWhere ((npdiff (a :: b :: t)).map (fun d => d != 0)) with
        | [] => none
        | i :: _ => some (decide (0 < i))
  | _ => none

/-- `np.sign` of a single rational difference. -/
def signq (d : ℚ) : Int :=
  if 0 < d then 1 else if d < 0 then -1 else 0

/-- The loop of `non_increasing_and_non_decreasing_parts`: walk the signs
from index 1, extending the current run, and opening a new run whenever a
nonzero sign differs from the current run's sign.  `run` is the list the
Python code keeps growing as `A[-1]`; the final `A[-1].append(A[-1][-1]+1)`
is performed at the end of the walk when `iep` is set. -/
def nindLoop (iep : Bool) : List Int → ℕ → Int → List ℕ → List (List ℕ)
  | [], _, _, run => if iep then [run ++ [run.getLastD 0 + 1]] else [run]
  | sgn :: rest, i, cs, run =>
      if sgn ≠ 0 ∧ sgn ≠ cs then
        (if iep then run ++ [i] else run) :: nindLoop iep rest (i + 1) sgn [i]
      else
        nindLoop iep rest (i + 1) cs (run ++ [i])

/-- `non_increasing_and_non_decreasing_parts(x, include_end_point)`.
`current_sign = sign_changes[np.where(sign_changes!=0)[0][0]]` raises an
IndexError (modelled by `none`) when every difference is zero. -/
def non_increasing_and_non_decreasing_parts (x : List ℚ) (include_end_point : Bool) :
    Option (List (List ℕ)) :=
  let sign_changes := (npdiff x).map signq
  match (sign_changes.filter (fun s => s != 0)).head? with
  | none => none
  | some current_sign =>
      some (nindLoop include_end_point sign_changes.tail 1 current_sign [0])

/-- Start indices of the zero differences of `z`:
`np.where(np.diff(z) == 0)[0]`. -/
def stepsOf (z : List ℚ) : List ℕ :=
  npWhere ((npdiff z).map (fun d => d == 0))

/-- The NumPy fancy assignment `x[idx] = x[idx] + dx` for paired index/value
lists: every right-hand side is read from the original `x` before any write,
exactly as NumPy evaluates the vectorised statement. -/
def applyUpdates (x : List ℚ) (upd : List (ℕ × ℚ)) : List ℚ :=
  upd.foldl (fun acc p => acc.set p.1 (x.getD p.1 0 + p.2)) x

/-- The perturbation values `dx`: `np.arange(len(steps),0,-1) * (-eps)` when
`keep_end_points` (entry `k` is `(m-k)*(-eps)`), else
`np.arange(1,len(steps)+1) * eps` (entry `k` is `(k+1)*eps`). -/
def dxFor (keep_end_points : Bool) (m : ℕ) (eps : ℚ) : List ℚ :=
  if keep_end_points then (List.range m).map (fun k => ((m - k : ℕ) : ℚ) * (-eps))
  else (List.range m).map (fun k => ((k + 1 : ℕ) : ℚ) * eps)

/-- The perturbation stage of `force_strictly_increasing`:
`steps = np.where(np.diff(x)==0)[0]; x[steps + d] = x[steps + d] + dx`. -/
def perturbApply (z : List ℚ) (keep_end_points : Bool) (eps : ℚ) : List ℚ :=
  let steps := stepsOf z
  let d : ℕ := if keep_end_points then 0 else 1
  applyUpdates z ((steps.map (fun s => s + d)).zip (dxFor keep_end_points steps.length eps))

/-- `force_strictly_increasing(x, y, keep_end_points, eps)`; the ValueError
on mixed-direction data is modelled by `Except.error`. -/
def force_strictly_increasing (x y : List ℚ) (keep_end_points : Bool) (eps : ℚ) :
    Except String (List ℚ × List ℚ) :=
  if strictly_increasing x then Except.ok (x, y)
  else if strictly_decreasing x then Except.ok (x.reverse, y.reverse)
  else
    let xr := if non_increasing x then x.reverse else x
    let yr := if non_increasing x then y.reverse else y
    if non_decreasing xr then Except.ok (perturbApply xr keep_end_points eps, yr)
    else Except.error "x data is neither non-increasing, nor non-decreasing, therefore cannot force to strictly increasing"

/-- `force_non_decreasing(x, y)`. -/
def force_non_decreasing (x y : List ℚ) : Except String (List ℚ × List ℚ) :=
  if non_decreasing x then Except.ok (x, y)
  else if non_increasing x then Except.ok (x.reverse, y.reverse)
  else Except.error "x data is neither non-increasing, nor non-decreasing, therefore cannot force to non-decreasing"

/-- `ramps_constants_steps(x, y)`: `(ramps, constants, steps)` where
`steps = np.where(np.diff(x)==0)[0]`, `constants = np.where(np.diff(y)==0)[0]`
and `ramps = np.delete(np.arange(len(x)-1), np.concatenate((steps, constants)))`. -/
def ramps_constants_steps (x y : List ℚ) : List ℕ × List ℕ × List ℕ :=
  let steps := stepsOf x
  let constants := stepsOf y
  let ramps := npDelete (List.range (x.length - 1)) (steps ++ constants)
  (ramps, constants, steps)

/-- `start_index_of_ramps(x, y)`:
`np.where((np.diff(x)!=0) & (np.diff(y)!=0))[0]`. -/
def start_index_of_ramps (x y : List ℚ) : List ℕ :=
  npWhere (((npdiff x).zip (npdiff y)).map (fun p => p.1 != 0 && p.2 != 0))

/-- `start_index_of_constants(x, y)`:
`np.delete(np.where(np.diff(y)==0)[0], np.where((np.diff(x)==0) & (np.diff(y)==0))[0])`.
Note that `np.delete` interprets its second argument as *positions* into the
first array, not as values. -/
def start_index_of_constants (x y : List ℚ) : List ℕ :=
  npDelete (npWhere ((npdiff y).map (fun d => d == 0)))
           (npWhere (((npdiff x).zip (npdiff y)).map (fun p => p.1 == 0 && p.2 == 0)))

/-- `start_index_of_steps(x, y)`:
`np.delete(np.where(np.diff(x)==0)[0], np.where((np.diff(x)==0) & (np.diff(y)==0))[0])`. -/
def start_index_of_steps (x y : List ℚ) : List ℕ :=
  npDelete (npWhere ((npdiff x).map (fun d => d == 0)))
           (npWhere (((npdiff x).zip (npdiff y)).map (fun p => p.1 == 0 && p.2 == 0)))

/-- The `x` sequence after the reversal policy of `force_strictly_increasing`
(the "possibly reversed original"): unchanged when already strictly
increasing, reversed when non-increasing, unchanged otherwise. -/
def canonX (x : List ℚ) : List ℚ :=
  if strictly_increasing x then x else if non_increasing x then x.reverse else x

/-- The `y` sequence after the reversal policy of `force_strictly_increasing`. -/
def canonY (x y : List ℚ) : List ℚ :=
  if strictly_increasing x then y else if non_increasing x then y.reverse else y

/-- The `include_end_point = True` decoration of the splitter's output:
each non-final run appends the first start index of the following run, and
the final run appends one index past its own last start index. -/
def addEnds : List (List ℕ) → List (List ℕ)
  | [] => []
  | [r] => [r ++ [r.getLastD 0 + 1]]
  | r :: r2 :: rest => (r ++ [r2.headD 0]) :: addEnds (r2 :: rest)

/-! ### Basic facts about the NumPy primitives -/

lemma npdiff_length : ∀ (x : List ℚ), (npdiff x).length = x.length - 1
  | [] => rfl
  | [_] => rfl
  | a :: b :: t => by
      have ih := npdiff_length (b :: t)
      simp only [npdiff, List.length_cons] at *
      omega

lemma npdiff_getD : ∀ (x : List ℚ) (i : ℕ), i + 1 < x.length →
    (npdiff x).getD i 0 = x.getD (i + 1) 0 - x.getD i 0
  | [], i, h => by simp at h
  | [_], i, h => by simp at h
  | a :: b :: t, 0, _ => by simp [npdiff]
  | a :: b :: t, (i+1), h => by
      have ih := npdiff_getD (b :: t) i (by simpa using h)
      simpa [npdiff, List.getD_cons_succ] using ih

lemma mem_npdiff {x : List ℚ} {d : ℚ} :
    d ∈ npdiff x ↔ ∃ i, i + 1 < x.length ∧ d = x.getD (i + 1) 0 - x.getD i 0 := by
  have hlen := npdiff_length x
  rw [List.mem_iff_get]
  constructor
  · rintro ⟨⟨i, hi⟩, rfl⟩
    have hi' : i + 1 < x.length := by omega
    exact ⟨i, hi', by rw [← npdiff_getD x i hi', List.getD_eq_get _ _ hi]⟩
  · rintro ⟨i, hi, rfl⟩
    have hi' : i < (npdiff x).length := by omega
    exact ⟨⟨i, hi'⟩, by rw [← List.getD_eq_get _ (0:ℚ) hi', npdiff_getD x i hi]⟩

lemma forall_mem_npdiff_iff_getD {x : List ℚ} {P : ℚ → Prop} :
    (∀ d ∈ npdiff x, P d) ↔ ∀ i, i + 1 < x.length → P (x.getD (i + 1) 0 - x.getD i 0) := by
  constructor
  · intro h i hi
    exact h _ (mem_npdiff.mpr ⟨i, hi, rfl⟩)
  · intro h d hd
    obtain ⟨i, hi, rfl⟩ := mem_npdiff.mp hd
    exact h i hi

lemma getD_map_decide (l : List ℚ) (i : ℕ) (h : i < l.length) (p : ℚ → Bool) :
    (l.map p).getD i false = p (l.getD i 0) := by
  rw [List.getD_eq_get _ _ (by simpa using h), List.getD_eq_get _ _ h]
  simp [List.get_map]

lemma mem_npWhere {b : List Bool} {i : ℕ} :
    i ∈ npWhere b ↔ i < b.length ∧ b.getD i false = true := by
  simp [npWhere, List.mem_filter, List.mem_range]

lemma npWhere_sorted (b : List Bool) : (npWhere b).Pairwise (· < ·) :=
  List.Pairwise.sublist (List.filter_sublist _) (List.pairwise_lt_range _)

lemma npWhere_nodup (b : List Bool) : (npWhere b).Nodup :=
  List.Nodup.sublist (List.filter_sublist _) (List.nodup_range _)

lemma npWhere_eq_nil {b : List Bool} :
    npWhere b = [] ↔ ∀ i, i < b.length → b.getD i false = false := by
  rw [npWhere, List.filter_eq_nil_iff]
  constructor
  · intro h i hi
    have := h i (List.mem_range.mpr hi)
    simpa using this
  · intro h i hi
    rw [h i (List.mem_range.mp hi)]
    simp

lemma npWhere_map_ne_eq_nil {l : List ℚ} :
    npWhere (l.map (fun d => d != 0)) = [] ↔ ∀ d ∈ l, d = 0 := by
  rw [npWhere_eq_nil]
  constructor
  · intro h d hd
    obtain ⟨⟨i, hi⟩, rfl⟩ := List.mem_iff_get.mp hd
    have hh := h i (by simpa using hi)
    rw [getD_map_decide _ _ hi _] at hh
    rw [← List.getD_eq_get _ (0:ℚ) hi]
    simpa using hh
  · intro h i hi
    rw [List.length_map] at hi
    rw [getD_map_decide _ _ hi _]
    have h0 := h _ (List.get_mem l i hi)
    rw [← List.getD_eq_get _ (0:ℚ) hi] at h0
    rw [h0]
    simp

lemma mem_stepsOf {z : List ℚ} {i : ℕ} :
    i ∈ stepsOf z ↔ i + 1 < z.length ∧ z.getD (i + 1) 0 = z.getD i 0 := by
  have hd := npdiff_length z
  rw [stepsOf, mem_npWhere, List.length_map]
  constructor
  · rintro ⟨hlen, hval⟩
    have hlen' : i + 1 < z.length := by omega
    rw [getD_map_decide _ _ hlen _, npdiff_getD z i hlen'] at hval
    exact ⟨hlen', sub_eq_zero.mp (by simpa using hval)⟩
  · rintro ⟨hlen', heq⟩
    have hlen : i < (npdiff z).length := by omega
    refine ⟨hlen, ?_⟩
    rw [getD_map_decide _ _ hlen _, npdiff_getD z i hlen', sub_eq_zero.mpr heq]
    simp

lemma stepsOf_sorted (z : List ℚ) : (stepsOf z).Pairwise (· < ·) :=
  npWhere_sorted _

lemma stepsOf_nodup (z : List ℚ) : (stepsOf z).Nodup :=
  npWhere_nodup _

/-! ### The monotonicity predicates, element-wise -/

lemma non_decreasing_iff {x : List ℚ} :
    non_decreasing x = true ↔ ∀ d ∈ npdiff x, 0 ≤ d := by
  simp [non_decreasing, List.all_eq_true]

lemma non_increasing_iff {x : List ℚ} :
    non_increasing x = true ↔ ∀ d ∈ npdiff x, d ≤ 0 := by
  simp [non_increasing, List.all_eq_true]

lemma strictly_increasing_iff {x : List ℚ} :
    strictly_increasing x = true ↔ ∀ d ∈ npdiff x, 0 < d := by
  simp [strictly_increasing, List.all_eq_true]

lemma strictly_decreasing_iff {x : List ℚ} :
    strictly_decreasing x = true ↔ ∀ d ∈ npdiff x, d < 0 := by
  simp [strictly_decreasing, List.all_eq_true]

lemma has_steps_iff {x : List ℚ} :
    has_steps x = true ↔ ∃ d ∈ npdiff x, d = 0 := by
  simp [has_steps, List.any_eq_true]

lemma non_decreasing_iff_getD {x : List ℚ} :
    non_decreasing x = true ↔ ∀ i, i + 1 < x.length → x.getD i 0 ≤ x.getD (i + 1) 0 := by
  rw [non_decreasing_iff, forall_mem_npdiff_iff_getD]
  exact forall_congr' fun i => imp_congr Iff.rfl (by rw [sub_nonneg])

lemma strictly_increasing_iff_getD {x : List ℚ} :
    strictly_increasing x = true ↔ ∀ i, i + 1 < x.length → x.getD i 0 < x.getD (i + 1) 0 := by
  rw [strictly_increasing_iff, forall_mem_npdiff_iff_getD]
  exact forall_congr' fun i => imp_congr Iff.rfl (by rw [sub_pos])

lemma mem_npDelete_range {k : ℕ} {pos : List ℕ} {i : ℕ} :
    i ∈ npDelete (List.range k) pos ↔ i < k ∧ i ∉ pos := by
  rw [npDelete, List.mem_filterMap]
  constructor
  · rintro ⟨j, hj, hfj⟩
    rw [List.length_range, List.mem_range] at hj
    by_cases hmem : j ∈ pos
    · rw [if_pos hmem] at hfj
      exact absurd hfj (by simp)
    · rw [if_neg hmem, List.get?_range hj] at hfj
      obtain rfl : j = i := Option.some_injective _ hfj
      exact ⟨hj, hmem⟩
  · rintro ⟨hik, hpos⟩
    refine ⟨i, ?_, ?_⟩
    · rw [List.length_range, List.mem_range]
      exact hik
    · rw [if_neg hpos, List.get?_range hik]

/-! ### C10: the four monotonicity predicates on inputs of length < 2 -/

/-- C10: on a sequence of length 0 or 1 all four monotonicity predicates are
vacuously `True`; in particular `strictly_increasing` and
`strictly_decreasing` hold simultaneously on such inputs. -/
theorem C10_vacuous_monotonicity (x : List ℚ) (h : x.length ≤ 1) :
    strictly_increasing x = true ∧ strictly_decreasing x = true ∧
    non_increasing x = true ∧ non_decreasing x = true := by
  have hx : npdiff x = [] := by
    cases x with
    | nil => rfl
    | cons a t =>
      cases t with
      | nil => rfl
      | cons b t' => simp at h
  simp [strictly_increasing, strictly_decreasing, non_increasing, non_decreasing, hx]

/-- Witness for C10 at the singleton sequence `[5]`. -/
theorem C10_witness :
    strictly_increasing [(5:ℚ)] = true ∧ strictly_decreasing [(5:ℚ)] = true ∧
    non_increasing [(5:ℚ)] = true ∧ non_decreasing [(5:ℚ)] = true :=
  C10_vacuous_monotonicity [5] (by decide)

/-! ### C9: the segment splitter fails on fully flat input -/

/-- C9: a fully flat sequence (all consecutive differences zero) of length
at least 2 makes `non_increasing_and_non_decreasing_parts` raise (the
IndexError inside `np.where(sign_changes!=0)[0][0]`, modelled by `none`),
for either value of `include_end_point`. -/
theorem C9_flat_input_raises (x : List ℚ) (h2 : 2 ≤ x.length)
    (hflat : ∀ d ∈ npdiff x, d = 0) (iep : Bool) :
    non_increasing_and_non_decreasing_parts x iep = none := by
  have hnil : ((npdiff x).map signq).filter (fun s => s != 0) = [] := by
    rw [List.filter_eq_nil_iff]
    intro s hs
    rw [List.mem_map] at hs
    obtain ⟨d, hd, rfl⟩ := hs
    simp [signq, hflat d hd]
  simp [non_increasing_and_non_decreasing_parts, hnil]

/-- Witness for C9 at the flat sequence `[1, 1]`. -/
theorem C9_witness :
    non_increasing_and_non_decreasing_parts [(1:ℚ), 1] true = none :=
  C9_flat_input_raises [1, 1] (by decide) (by norm_num [npdiff]) true

/-! ### C3: totality; `is_initially_increasing` on constant input -/

/-- Counterexample to C3 as stated: on the fully constant sequence `[1, 1]`
(length 2) `is_initially_increasing` does not return a value — the code
evaluates `np.where(np.diff(x)!=0)[0][0]` on an empty index array, an
IndexError, modelled by `none`. -/
theorem C3_cex : is_initially_increasing [(1:ℚ), 1] = none := by
  simp [is_initially_increasing, npdiff, npWhere]

/-- C3 (amended): for inputs of length ≥ 2, `is_initially_increasing`
fails exactly on the fully constant sequences; it returns a value whenever
some consecutive difference is nonzero.  (All the other listed functions
are total functions of the embedding.) -/
theorem C3_initially_increasing_none_iff (x : List ℚ) (h2 : 2 ≤ x.length) :
    is_initially_increasing x = none ↔ ∀ d ∈ npdiff x, d = 0 := by
  match x, h2 with
  | a :: b :: t, _ =>
    by_cases hab : b ≠ a
    · rw [is_initially_increasing, if_pos hab]
      constructor
      · intro h
        exact absurd h (by simp)
      · intro h
        have h0 : b - a = 0 := h _ (by simp [npdiff])
        exact absurd (sub_eq_zero.mp h0) hab
    · rw [is_initially_increasing, if_neg hab]
      rcases hw : npWhere ((npdiff (a :: b :: t)).map (fun d => d != 0)) with _ | ⟨i, rest⟩
      · simpa using npWhere_map_ne_eq_nil.mp hw
      · constructor
        · intro h
          exact absurd h (by simp)
        · intro hall
          have hnil : npWhere ((npdiff (a :: b :: t)).map (fun d => d != 0)) = [] :=
            npWhere_map_ne_eq_nil.mpr hall
          rw [hw] at hnil
          exact absurd hnil (by simp)

/-- Witness for C3's amended theorem at `[1, 2]`: some difference is
nonzero, so a value is returned. -/
theorem C3_witness :
    is_initially_increasing [(1:ℚ), 2] = none ↔ ∀ d ∈ npdiff [(1:ℚ), 2], d = 0 :=
  C3_initially_increasing_none_iff [1, 2] (by simp)

/-! ### C2: the `start_index_of_*` helpers and `np.delete` -/

/-- C2 (exhibiting the code bug): `np.delete(arr, obj)` removes the
*positions* `obj` from `arr`, but the code passes the degenerate interval
*indices* as `obj`.  For `x = [0,1,1,2]`, `y = [5,6,6,6]` (both
non-decreasing), interval 1 is degenerate (Δx=0 ∧ Δy=0) and interval 2 has
Δy=0 ∧ Δx≠0, so the documented result of `start_index_of_constants` is
`[2]`; the code instead deletes position 1 from `[1, 2]` and returns `[1]`
— the degenerate interval it promises to ignore.  Symmetrically for
`start_index_of_steps` on `x = [0,1,1,1]`, `y = [5,6,6,7]`. -/
theorem C2_delete_position_confusion :
    start_index_of_constants [0, 1, 1, 2] [5, 6, 6, 6] = [1] ∧
    npdiff [(0:ℚ), 1, 1, 2] = [1, 0, 1] ∧
    npdiff [(5:ℚ), 6, 6, 6] = [1, 0, 0] ∧
    start_index_of_steps [0, 1, 1, 1] [5, 6, 6, 7] = [1] ∧
    npdiff [(0:ℚ), 1, 1, 1] = [1, 0, 0] ∧
    npdiff [(5:ℚ), 6, 6, 7] = [1, 0, 1] := by
  have hc1 : npdiff [(0:ℚ), 1, 1, 2] = [1, 0, 1] := by norm_num [npdiff]
  have hc2 : npdiff [(5:ℚ), 6, 6, 6] = [1, 0, 0] := by norm_num [npdiff]
  have hs1 : npdiff [(0:ℚ), 1, 1, 1] = [1, 0, 0] := by norm_num [npdiff]
  have hs2 : npdiff [(5:ℚ), 6, 6, 7] = [1, 0, 1] := by norm_num [npdiff]
  refine ⟨?_, hc1, hc2, ?_, hs1, hs2⟩
  · rw [start_index_of_constants, hc1, hc2]
    decide
  · rw [start_index_of_steps, hs1, hs2]
    decide

/-! ### C1: the aggregate classifier's partition law -/

/-- Counterexample to C1 as stated: on the non-decreasing pair
`x = [0, 0]`, `y = [5, 5]` the single (degenerate) unit interval is
classified by `ramps_constants_steps` as a step *and* as a constant, so the
three index sets are not pairwise disjoint and the degenerate interval is
not "a step and nothing else". -/
theorem C1_cex :
    non_decreasing [(0:ℚ), 0] = true ∧ non_decreasing [(5:ℚ), 5] = true ∧
    0 ∈ (ramps_constants_steps [0, 0] [5, 5]).2.1 ∧
    0 ∈ (ramps_constants_steps [0, 0] [5, 5]).2.2 := by
  have h1 : npdiff [(0:ℚ), 0] = [0] := by norm_num [npdiff]
  have h2 : npdiff [(5:ℚ), 5] = [0] := by norm_num [npdiff]
  refine ⟨by norm_num [non_decreasing, npdiff], by norm_num [non_decreasing, npdiff], ?_, ?_⟩
  · show 0 ∈ stepsOf [(5:ℚ), 5]
    rw [stepsOf, h2]
    decide
  · show 0 ∈ stepsOf [(0:ℚ), 0]
    rw [stepsOf, h1]
    decide

/-- C1 (amended): for non-decreasing `x`, `y` of equal length ≥ 2, the
three index sets of `ramps_constants_steps` cover `{0, …, n-2}` exactly,
`ramps` is disjoint from both `constants` and `steps`, and an index lies in
both `constants` and `steps` precisely when its unit interval is degenerate
(Δx = 0 and Δy = 0); so the family is pairwise disjoint iff no degenerate
interval exists, and a degenerate interval is classified as both a step and
a constant (never a ramp). -/
theorem C1_partition (x y : List ℚ) (h2 : 2 ≤ x.length) (hlen : y.length = x.length)
    (hx : non_decreasing x = true) (hy : non_decreasing y = true) :
    (∀ i, i ∈ (ramps_constants_steps x y).1 →
        i ∉ (ramps_constants_steps x y).2.1 ∧ i ∉ (ramps_constants_steps x y).2.2) ∧
    (∀ i, (i ∈ (ramps_constants_steps x y).1 ∨ i ∈ (ramps_constants_steps x y).2.1 ∨
        i ∈ (ramps_constants_steps x y).2.2) ↔ i < x.length - 1) ∧
    (∀ i, i ∈ (ramps_constants_steps x y).2.1 ∧ i ∈ (ramps_constants_steps x y).2.2 ↔
        (i + 1 < x.length ∧ x.getD (i + 1) 0 = x.getD i 0 ∧ y.getD (i + 1) 0 = y.getD i 0)) := by
  have hr : ∀ i, i ∈ (ramps_constants_steps x y).1 ↔
      i < x.length - 1 ∧ i ∉ stepsOf x ++ stepsOf y := by
    intro i
    exact mem_npDelete_range
  refine ⟨?_, ?_, ?_⟩
  · intro i hi
    rw [hr] at hi
    obtain ⟨-, hnot⟩ := hi
    rw [List.mem_append] at hnot
    push_neg at hnot
    exact ⟨hnot.2, hnot.1⟩
  · intro i
    constructor
    · rintro (hi | hi | hi)
      · exact (hr i |>.mp hi).1
      · have := mem_stepsOf.mp hi
        omega
      · have := mem_stepsOf.mp hi
        omega
    · intro hi
      by_cases hmem : i ∈ stepsOf x ++ stepsOf y
      · rw [List.mem_append] at hmem
        rcases hmem with h | h
        · exact Or.inr (Or.inr h)
        · exact Or.inr (Or.inl h)
      · exact Or.inl ((hr i).mpr ⟨hi, hmem⟩)
  · intro i
    rw [show (ramps_constants_steps x y).2.1 = stepsOf y from rfl,
        show (ramps_constants_steps x y).2.2 = stepsOf x from rfl,
        mem_stepsOf, mem_stepsOf, hlen]
    constructor
    · rintro ⟨⟨h1, hyv⟩, ⟨h2', hxv⟩⟩
      exact ⟨h2', hxv, hyv⟩
    · rintro ⟨h1, hxv, hyv⟩
      exact ⟨⟨h1, hyv⟩, ⟨h1, hxv⟩⟩

/-- Witness for C1's amended theorem at `x = [0, 0]`, `y = [5, 5]`. -/
theorem C1_witness :
    (∀ i, i ∈ (ramps_constants_steps [(0:ℚ), 0] [(5:ℚ), 5]).1 →
        i ∉ (ramps_constants_steps [(0:ℚ), 0] [(5:ℚ), 5]).2.1 ∧
        i ∉ (ramps_constants_steps [(0:ℚ), 0] [(5:ℚ), 5]).2.2) ∧
    (∀ i, (i ∈ (ramps_constants_steps [(0:ℚ), 0] [(5:ℚ), 5]).1 ∨
        i ∈ (ramps_constants_steps [(0:ℚ), 0] [(5:ℚ), 5]).2.1 ∨
        i ∈ (ramps_constants_steps [(0:ℚ), 0] [(5:ℚ), 5]).2.2) ↔
        i < [(0:ℚ), 0].length - 1) ∧
    (∀ i, i ∈ (ramps_constants_steps [(0:ℚ), 0] [(5:ℚ), 5]).2.1 ∧
        i ∈ (ramps_constants_steps [(0:ℚ), 0] [(5:ℚ), 5]).2.2 ↔
        (i + 1 < [(0:ℚ), 0].length ∧
         [(0:ℚ), 0].getD (i + 1) 0 = [(0:ℚ), 0].getD i 0 ∧
         [(5:ℚ), 5].getD (i + 1) 0 = [(5:ℚ), 5].getD i 0)) :=
  C1_partition [0, 0] [5, 5] (by decide) (by decide)
    (by norm_num [non_decreasing, npdiff]) (by norm_num [non_decreasing, npdiff])

/-! ### Reversal transport -/

lemma npdiff_append_single : ∀ (l : List ℚ) (a : ℚ),
    npdiff (l ++ [a]) = npdiff l ++ ((l.getLast?).map (fun b => a - b)).toList
  | [], a => rfl
  | [_], a => rfl
  | b :: c :: t, a => by
      have ih := npdiff_append_single (c :: t) a
      simp only [List.cons_append] at ih ⊢
      rw [npdiff, npdiff]
      rw [show c :: (t ++ [a]) = (c :: t) ++ [a] from rfl] at *
      rw [ih, List.getLast?_cons_cons]
      simp

lemma npdiff_reverse : ∀ (x : List ℚ),
    npdiff x.reverse = ((npdiff x).reverse).map (fun d => -d)
  | [] => rfl
  | a :: t => by
      have ih := npdiff_reverse t
      rw [List.reverse_cons, npdiff_append_single, ih]
      cases t with
      | nil => rfl
      | cons b t' =>
          rw [List.getLast?_reverse]
          simp [npdiff, neg_sub]

lemma mem_npdiff_reverse {x : List ℚ} {d : ℚ} :
    d ∈ npdiff x.reverse ↔ -d ∈ npdiff x := by
  rw [npdiff_reverse, List.mem_map]
  constructor
  · rintro ⟨c, hc, rfl⟩
    simpa using List.mem_reverse.mp hc
  · intro h
    exact ⟨-d, List.mem_reverse.mpr h, by ring⟩

lemma non_decreasing_reverse {x : List ℚ} (h : non_increasing x = true) :
    non_decreasing x.reverse = true := by
  rw [non_decreasing_iff]
  intro d hd
  have := non_increasing_iff.mp h _ (mem_npdiff_reverse.mp hd)
  linarith

lemma strictly_increasing_reverse {x : List ℚ} (h : strictly_decreasing x = true) :
    strictly_increasing x.reverse = true := by
  rw [strictly_increasing_iff]
  intro d hd
  have := strictly_decreasing_iff.mp h _ (mem_npdiff_reverse.mp hd)
  linarith

lemma exists_mem_npdiff {x : List ℚ} (h2 : 2 ≤ x.length) : ∃ d, d ∈ npdiff x :=
  List.exists_mem_of_length_pos (by rw [npdiff_length]; omega)

/-! ### C6: the invalid-shape error -/

lemma fsi_error_iff (x y : List ℚ) (kep : Bool) (eps : ℚ) :
    (∃ e, force_strictly_increasing x y kep eps = Except.error e) ↔
      (non_increasing x = false ∧ non_decreasing x = false) := by
  rw [force_strictly_increasing]
  by_cases hsi : strictly_increasing x = true
  · rw [if_pos hsi]
    have hnd : non_decreasing x = true := by
      rw [non_decreasing_iff]
      intro d hd
      exact le_of_lt (strictly_increasing_iff.mp hsi _ hd)
    simp [hnd]
  · rw [if_neg hsi]
    by_cases hsd : strictly_decreasing x = true
    · rw [if_pos hsd]
      have hni : non_increasing x = true := by
        rw [non_increasing_iff]
        intro d hd
        exact le_of_lt (strictly_decreasing_iff.mp hsd _ hd)
      simp [hni]
    · rw [if_neg hsd]
      by_cases hni : non_increasing x = true
      · rw [if_pos hni, if_pos (non_decreasing_reverse hni)]
        simp [hni]
      · rw [if_neg hni, if_neg hni]
        by_cases hnd : non_decreasing x = true
        · rw [if_pos hnd]
          simp [hnd]
        · rw [if_neg hnd]
          simp [Bool.not_eq_true] at hni hnd
          simp [hni, hnd]

lemma fnd_error_iff (x y : List ℚ) :
    (∃ e, force_non_decreasing x y = Except.error e) ↔
      (non_increasing x = false ∧ non_decreasing x = false) := by
  rw [force_non_decreasing]
  by_cases hnd : non_decreasing x = true
  · rw [if_pos hnd]
    simp [hnd]
  · rw [if_neg hnd]
    by_cases hni : non_increasing x = true
    · rw [if_pos hni]
      simp [hni]
    · rw [if_neg hni]
      simp [Bool.not_eq_true] at hni hnd
      simp [hni, hnd]

/-- C6: both sanitizers raise the invalid-shape ValueError exactly when `x`
is neither non-increasing nor non-decreasing, and succeed otherwise; in
particular the switch-back input `[0, 0.5, 1, 0.75, 1.5, 2]` raises. -/
theorem C6_invalid_shape (x y : List ℚ) (kep : Bool) (eps : ℚ) (h2 : 2 ≤ x.length) :
    ((∃ e, force_strictly_increasing x y kep eps = Except.error e) ↔
      (non_increasing x = false ∧ non_decreasing x = false)) ∧
    ((∃ e, force_non_decreasing x y = Except.error e) ↔
      (non_increasing x = false ∧ non_decreasing x = false)) ∧
    (∃ e, force_strictly_increasing [0, 1/2, 1, 3/4, 3/2, 2] y kep eps = Except.error e) := by
  refine ⟨fsi_error_iff x y kep eps, fnd_error_iff x y, ?_⟩
  refine (fsi_error_iff _ y kep eps).mpr ⟨?_, ?_⟩
  · norm_num [non_increasing, npdiff]
  · norm_num [non_decreasing, npdiff]

/-- Witness for C6 at `x = [0, 1]`, `y = [7, 8]`. -/
theorem C6_witness :
    ((∃ e, force_strictly_increasing [(0:ℚ), 1] [(7:ℚ), 8] true 1 = Except.error e) ↔
      (non_increasing [(0:ℚ), 1] = false ∧ non_decreasing [(0:ℚ), 1] = false)) ∧
    ((∃ e, force_non_decreasing [(0:ℚ), 1] [(7:ℚ), 8] = Except.error e) ↔
      (non_increasing [(0:ℚ), 1] = false ∧ non_decreasing [(0:ℚ), 1] = false)) ∧
    (∃ e, force_strictly_increasing [0, 1/2, 1, 3/4, 3/2, 2] [(7:ℚ), 8] true 1 =
      Except.error e) :=
  C6_invalid_shape [0, 1] [7, 8] true 1 (by decide)

/-! ### C7: the `include_end_point` decoration of the splitter -/

lemma nindLoop_false_head : ∀ (sgns : List Int) (i : ℕ) (cs : Int) (a : ℕ) (rs : List ℕ),
    ∃ t rest, nindLoop false sgns i cs (a :: rs) = ((a :: rs) ++ t) :: rest
  | [], i, cs, a, rs => ⟨[], [], by simp [nindLoop]⟩
  | sgn :: sgns, i, cs, a, rs => by
      by_cases h : sgn ≠ 0 ∧ sgn ≠ cs
      · exact ⟨[], nindLoop false sgns (i + 1) sgn [i], by simp [nindLoop, if_pos h]⟩
      · obtain ⟨t, rest, ih⟩ := nindLoop_false_head sgns (i + 1) cs a (rs ++ [i])
        refine ⟨[i] ++ t, rest, ?_⟩
        rw [nindLoop, if_neg h]
        simpa using ih

lemma nindLoop_true_addEnds : ∀ (sgns : List Int) (i : ℕ) (cs : Int) (run : List ℕ),
    nindLoop true sgns i cs run = addEnds (nindLoop false sgns i cs run)
  | [], i, cs, run => by simp [nindLoop, addEnds]
  | sgn :: sgns, i, cs, run => by
      by_cases h : sgn ≠ 0 ∧ sgn ≠ cs
      · rw [nindLoop, nindLoop, if_pos h, if_pos h]
        obtain ⟨t, rest, hshape⟩ := nindLoop_false_head sgns (i + 1) sgn i []
        rw [hshape, nindLoop_true_addEnds sgns (i + 1) sgn [i], hshape]
        simp [addEnds]
      · rw [nindLoop, nindLoop, if_neg h, if_neg h]
        exact nindLoop_true_addEnds sgns (i + 1) cs (run ++ [i])

/-- C7: on any input with at least one nonzero consecutive difference, the
splitter's `include_end_point = True` output is obtained from the
`include_end_point = False` output by appending to each non-final run the
first start index of the following run, and to the final run one index past
its own last start index (`addEnds`). -/
theorem C7_include_end_point (x : List ℚ) (A : List (List ℕ)) (h2 : 2 ≤ x.length)
    (hA : non_increasing_and_non_decreasing_parts x false = some A) :
    non_increasing_and_non_decreasing_parts x true = some (addEnds A) := by
  rw [non_increasing_and_non_decreasing_parts] at hA ⊢
  rcases hh : (((npdiff x).map signq).filter (fun s => s != 0)).head? with _ | cs
  · rw [hh] at hA
    simp at hA
  · rw [hh] at hA
    simp only [Option.some_inj] at hA ⊢
    rw [← hA]
    exact nindLoop_true_addEnds _ 1 cs [0]

/-- Witness for C7 at the switch-back input `[0, 0.5, 1, 0.75, 1.5, 2]`. -/
theorem C7_witness :
    non_increasing_and_non_decreasing_parts [0, 1/2, 1, 3/4, 3/2, 2] true =
      some (addEnds [[0, 1], [2], [3, 4]]) :=
  C7_include_end_point [0, 1/2, 1, 3/4, 3/2, 2] [[0, 1], [2], [3, 4]] (by decide) (by
    have h1 : npdiff [(0:ℚ), 1/2, 1, 3/4, 3/2, 2] = [1/2, 1/2, -1/4, 3/4, 1/2] := by
      norm_num [npdiff]
    rw [non_increasing_and_non_decreasing_parts, h1]
    norm_num [signq, nindLoop])

/-! ### The fancy assignment `x[idx] = x[idx] + dx` -/

lemma getD_set_ne (l : List ℚ) (j i : ℕ) (a : ℚ) (h : j ≠ i) :
    (l.set j a).getD i 0 = l.getD i 0 := by
  rw [List.getD_eq_getElem?_getD, List.getD_eq_getElem?_getD, List.getElem?_set_ne h]

lemma getD_set_self (l : List ℚ) (i : ℕ) (a : ℚ) (h : i < l.length) :
    (l.set i a).getD i 0 = a := by
  rw [List.getD_eq_getElem?_getD, List.getElem?_set_self', List.getElem?_eq_getElem h]
  rfl

lemma foldUpd_length (x : List ℚ) : ∀ (upd : List (ℕ × ℚ)) (acc : List ℚ),
    (upd.foldl (fun a p => a.set p.1 (x.getD p.1 0 + p.2)) acc).length = acc.length
  | [], _ => rfl
  | p :: t, acc => by
      rw [List.foldl_cons, foldUpd_length x t _, List.length_set]

lemma foldUpd_getD_not_mem (x : List ℚ) : ∀ (upd : List (ℕ × ℚ)) (acc : List ℚ) (i : ℕ),
    (∀ p ∈ upd, p.1 ≠ i) →
    (upd.foldl (fun a p => a.set p.1 (x.getD p.1 0 + p.2)) acc).getD i 0 = acc.getD i 0
  | [], _, _, _ => rfl
  | p :: t, acc, i, h => by
      rw [List.foldl_cons,
          foldUpd_getD_not_mem x t _ i (fun q hq => h q (List.mem_cons_of_mem _ hq)),
          getD_set_ne _ _ _ _ (h p (List.mem_cons_self _ _))]

lemma foldUpd_getD_mem (x : List ℚ) : ∀ (upd : List (ℕ × ℚ)) (acc : List ℚ) (i : ℕ) (v : ℚ),
    (upd.map Prod.fst).Nodup → (i, v) ∈ upd → i < acc.length →
    (upd.foldl (fun a p => a.set p.1 (x.getD p.1 0 + p.2)) acc).getD i 0 = x.getD i 0 + v
  | [], _, _, _, _, hm, _ => absurd hm (by simp)
  | p :: t, acc, i, v, hnd, hm, hlen => by
      rw [List.map_cons, List.nodup_cons] at hnd
      rw [List.foldl_cons]
      rcases List.mem_cons.mp hm with heq | hmem
      · have hfst : p.1 = i := by rw [← heq]
        have hsnd : p.2 = v := by rw [← heq]
        have hni : ∀ q ∈ t, q.1 ≠ i := by
          intro q hq hqi
          exact hnd.1 (hfst ▸ hqi ▸ List.mem_map_of_mem Prod.fst hq)
        rw [foldUpd_getD_not_mem x t _ i hni, hfst, hsnd, getD_set_self _ _ _ hlen]
      · exact foldUpd_getD_mem x t _ i v hnd.2 hmem (by rw [List.length_set]; exact hlen)

/-! ### Sorted index lists -/

lemma sorted_get_mono {l : List ℕ} (hs : l.Pairwise (· < ·)) {j j' : ℕ}
    (hj : j < l.length) (hj' : j' < l.length) (h : j < j') :
    l.get ⟨j, hj⟩ < l.get ⟨j', hj'⟩ :=
  List.pairwise_iff_get.mp hs ⟨j, hj⟩ ⟨j', hj'⟩ h

lemma sorted_adjacent {l : List ℕ} (hs : l.Pairwise (· < ·)) {j j' : ℕ}
    (hj : j < l.length) (hj' : j' < l.length)
    (h : l.get ⟨j', hj'⟩ = l.get ⟨j, hj⟩ + 1) : j' = j + 1 := by
  have h1 : j < j' := by
    rcases lt_trichotomy j j' with hlt | rfl | hgt
    · exact hlt
    · omega
    · have := sorted_get_mono hs hj' hj hgt
      omega
  by_contra hne
  have h2 : j + 1 < j' := by omega
  have hj1 : j + 1 < l.length := by omega
  have a1 := sorted_get_mono hs hj hj1 (by omega)
  have a2 := sorted_get_mono hs hj1 hj' h2
  omega

/-! ### Pointwise description of the perturbation stage -/

lemma dxFor_length (kep : Bool) (m : ℕ) (eps : ℚ) : (dxFor kep m eps).length = m := by
  cases kep <;> simp [dxFor]

lemma perturbApply_length (z : List ℚ) (kep : Bool) (eps : ℚ) :
    (perturbApply z kep eps).length = z.length :=
  foldUpd_length z _ z

lemma perturbApply_getD_not_target (z : List ℚ) (kep : Bool) (eps : ℚ) (i : ℕ)
    (h : ∀ s ∈ stepsOf z, s + (if kep then 0 else 1) ≠ i) :
    (perturbApply z kep eps).getD i 0 = z.getD i 0 := by
  apply foldUpd_getD_not_mem
  rintro ⟨s', v⟩ hp
  have hs' : s' ∈ (stepsOf z).map (fun s => s + (if kep then 0 else 1)) :=
    (List.of_mem_zip hp).1
  rw [List.mem_map] at hs'
  obtain ⟨s, hs, rfl⟩ := hs'
  exact h s hs

lemma stepsOf_get_add_lt (z : List ℚ) (j : ℕ) (hj : j < (stepsOf z).length) (d : ℕ)
    (hd : d ≤ 1) : (stepsOf z).get ⟨j, hj⟩ + d < z.length := by
  have hmem := mem_stepsOf.mp (List.get_mem (stepsOf z) j hj)
  omega

lemma perturbApply_getD_target (z : List ℚ) (kep : Bool) (eps : ℚ) (j : ℕ)
    (hj : j < (stepsOf z).length) :
    (perturbApply z kep eps).getD ((stepsOf z).get ⟨j, hj⟩ + (if kep then 0 else 1)) 0
      = z.getD ((stepsOf z).get ⟨j, hj⟩ + (if kep then 0 else 1)) 0
        + (if kep then (((stepsOf z).length - j : ℕ) : ℚ) * (-eps)
           else ((j + 1 : ℕ) : ℚ) * eps) := by
  set d : ℕ := if kep then 0 else 1 with hd
  set val : ℚ := if kep then (((stepsOf z).length - j : ℕ) : ℚ) * (-eps)
      else ((j + 1 : ℕ) : ℚ) * eps with hval
  apply foldUpd_getD_mem
  · have hmap : (((stepsOf z).map (fun s => s + d)).zip
        (dxFor kep (stepsOf z).length eps)).map Prod.fst
        = (stepsOf z).map (fun s => s + d) := by
      apply List.map_fst_zip
      rw [List.length_map, dxFor_length]
    rw [hmap]
    exact List.Nodup.map (add_left_injective d) (stepsOf_nodup z)
  · have h1 : ((stepsOf z).map (fun s => s + d))[j]?
        = some ((stepsOf z).get ⟨j, hj⟩ + d) := by
      rw [List.getElem?_map, List.getElem?_eq_getElem hj]
      rfl
    have h2 : (dxFor kep (stepsOf z).length eps)[j]? = some val := by
      cases kep <;>
        simp only [dxFor, Bool.false_eq_true, if_false, if_true, hval] <;>
        rw [List.getElem?_map, List.getElem?_range hj] <;> rfl
    have hz : (((stepsOf z).map (fun s => s + d)).zip
        (dxFor kep (stepsOf z).length eps))[j]?
        = some ((stepsOf z).get ⟨j, hj⟩ + d, val) :=
      List.getElem?_zip_eq_some.mpr ⟨h1, h2⟩
    have hjlt : j < (((stepsOf z).map (fun s => s + d)).zip
        (dxFor kep (stepsOf z).length eps)).length := by
      rw [List.length_zip, List.length_map, dxFor_length]
      simpa using hj
    have := List.getElem_mem hjlt
    rwa [List.getElem_eq_iff.mpr hz] at this
  · exact stepsOf_get_add_lt z j hj d (by cases kep <;> simp [hd])

lemma perturb_target_cases (z : List ℚ) (kep : Bool) (eps : ℚ) (i : ℕ) :
    (perturbApply z kep eps).getD i 0 = z.getD i 0 ∨
    ∃ j : ℕ, ∃ hj : j < (stepsOf z).length,
      i = (stepsOf z).get ⟨j, hj⟩ + (if kep then 0 else 1) ∧
      (perturbApply z kep eps).getD i 0 = z.getD i 0 +
        (if kep then (((stepsOf z).length - j : ℕ) : ℚ) * (-eps)
         else ((j + 1 : ℕ) : ℚ) * eps) := by
  by_cases h : ∃ s ∈ stepsOf z, s + (if kep then 0 else 1) = i
  · obtain ⟨s, hs, hsi⟩ := h
    obtain ⟨⟨j, hj⟩, hget⟩ := List.mem_iff_get.mp hs
    subst hsi
    refine Or.inr ⟨j, hj, by rw [hget], ?_⟩
    rw [← hget]
    exact perturbApply_getD_target z kep eps j hj
  · push_neg at h
    exact Or.inl (perturbApply_getD_not_target z kep eps i h)

lemma perturbApply_getD_step_keep (z : List ℚ) (eps : ℚ) (j : ℕ)
    (hj : j < (stepsOf z).length) :
    (perturbApply z true eps).getD ((stepsOf z).get ⟨j, hj⟩) 0
      = z.getD ((stepsOf z).get ⟨j, hj⟩) 0
        + (((stepsOf z).length - j : ℕ) : ℚ) * (-eps) := by
  simpa using perturbApply_getD_target z true eps j hj

lemma perturbApply_getD_step_move (z : List ℚ) (eps : ℚ) (j : ℕ)
    (hj : j < (stepsOf z).length) :
    (perturbApply z false eps).getD ((stepsOf z).get ⟨j, hj⟩ + 1) 0
      = z.getD ((stepsOf z).get ⟨j, hj⟩ + 1) 0 + ((j + 1 : ℕ) : ℚ) * eps := by
  simpa using perturbApply_getD_target z false eps j hj

lemma perturbApply_getD_keep_not_step (z : List ℚ) (eps : ℚ) (i : ℕ)
    (h : i ∉ stepsOf z) :
    (perturbApply z true eps).getD i 0 = z.getD i 0 := by
  apply perturbApply_getD_not_target
  intro s hs
  simp only [if_pos rfl, Nat.add_zero]
  intro hsi
  exact h (hsi ▸ hs)

lemma perturbApply_getD_move_not_target (z : List ℚ) (eps : ℚ) (i : ℕ)
    (h : ∀ s ∈ stepsOf z, s + 1 ≠ i) :
    (perturbApply z false eps).getD i 0 = z.getD i 0 := by
  apply perturbApply_getD_not_target
  simpa using h

lemma perturb_cases_keep (z : List ℚ) (eps : ℚ) (i : ℕ) :
    (perturbApply z true eps).getD i 0 = z.getD i 0 ∨
    ∃ j : ℕ, ∃ hj : j < (stepsOf z).length,
      i = (stepsOf z).get ⟨j, hj⟩ ∧
      (perturbApply z true eps).getD i 0 = z.getD i 0 +
        (((stepsOf z).length - j : ℕ) : ℚ) * (-eps) := by
  rcases perturb_target_cases z true eps i with h | ⟨j, hj, hi, hval⟩
  · exact Or.inl h
  · exact Or.inr ⟨j, hj, by simpa using hi, by simpa using hval⟩

lemma perturb_cases_move (z : List ℚ) (eps : ℚ) (i : ℕ) :
    (perturbApply z false eps).getD i 0 = z.getD i 0 ∨
    ∃ j : ℕ, ∃ hj : j < (stepsOf z).length,
      i = (stepsOf z).get ⟨j, hj⟩ + 1 ∧
      (perturbApply z false eps).getD i 0 = z.getD i 0 + ((j + 1 : ℕ) : ℚ) * eps := by
  rcases perturb_target_cases z false eps i with h | ⟨j, hj, hi, hval⟩
  · exact Or.inl h
  · exact Or.inr ⟨j, hj, by simpa using hi, by simpa using hval⟩

/-- The perturbation stage on a non-decreasing `z`: when `eps` is positive
and `(number of steps) * eps` is below every nonzero gap, the result is
strictly increasing and every entry moves by at most `(number of steps) * eps`. -/
lemma perturb_strict_and_bound (z : List ℚ) (kep : Bool) (eps : ℚ)
    (hnd : non_decreasing z = true) (heps : 0 < eps)
    (hgap : ∀ d ∈ npdiff z, d ≠ 0 → ((stepsOf z).length : ℚ) * eps < |d|) :
    strictly_increasing (perturbApply z kep eps) = true ∧
    ∀ i, |(perturbApply z kep eps).getD i 0 - z.getD i 0|
        ≤ ((stepsOf z).length : ℚ) * eps := by
  have hnd' : ∀ i, i + 1 < z.length → z.getD i 0 ≤ z.getD (i + 1) 0 :=
    non_decreasing_iff_getD.mp hnd
  have hgap' : ∀ i, i + 1 < z.length → z.getD (i + 1) 0 ≠ z.getD i 0 →
      ((stepsOf z).length : ℚ) * eps < z.getD (i + 1) 0 - z.getD i 0 := by
    intro i hi hne
    have hd := hgap _ (mem_npdiff.mpr ⟨i, hi, rfl⟩) (sub_ne_zero.mpr hne)
    rwa [abs_of_nonneg (sub_nonneg.mpr (hnd' i hi))] at hd
  have hme : (0:ℚ) ≤ ((stepsOf z).length : ℚ) * eps :=
    mul_nonneg (Nat.cast_nonneg _) heps.le
  constructor
  · rw [strictly_increasing_iff_getD]
    intro i hi
    rw [perturbApply_length] at hi
    by_cases hstep : i ∈ stepsOf z
    · obtain ⟨⟨j, hj⟩, hget⟩ := List.mem_iff_get.mp hstep
      have heq : z.getD (i + 1) 0 = z.getD i 0 := (mem_stepsOf.mp hstep).2
      cases kep with
      | true =>
          have hzi : (perturbApply z true eps).getD i 0
              = z.getD i 0 + (((stepsOf z).length - j : ℕ) : ℚ) * (-eps) := by
            rw [← hget]
            exact perturbApply_getD_step_keep z eps j hj
          by_cases hstep2 : i + 1 ∈ stepsOf z
          · obtain ⟨⟨j', hj'⟩, hget2⟩ := List.mem_iff_get.mp hstep2
            have hadj : j' = j + 1 :=
              sorted_adjacent (stepsOf_sorted z) hj hj' (by rw [hget, hget2])
            have hzi1 : (perturbApply z true eps).getD (i + 1) 0
                = z.getD (i + 1) 0 + (((stepsOf z).length - j' : ℕ) : ℚ) * (-eps) := by
              rw [← hget2]
              exact perturbApply_getD_step_keep z eps j' hj'
            have hsub : (((stepsOf z).length - j : ℕ) : ℚ)
                = (((stepsOf z).length - (j + 1) : ℕ) : ℚ) + 1 := by
              exact_mod_cast congrArg (Nat.cast (R := ℚ))
                (by omega : (stepsOf z).length - j = ((stepsOf z).length - (j + 1)) + 1)
            rw [hzi, hzi1, heq, hadj]
            nlinarith [hsub, heps]
          · have hzi1 : (perturbApply z true eps).getD (i + 1) 0 = z.getD (i + 1) 0 :=
              perturbApply_getD_keep_not_step z eps (i + 1) hstep2
            have hone : (1:ℚ) ≤ (((stepsOf z).length - j : ℕ) : ℚ) :=
              Nat.one_le_cast.mpr (by omega)
            rw [hzi, hzi1, heq]
            nlinarith [heps, hone]
      | false =>
          have hzi1 : (perturbApply z false eps).getD (i + 1) 0
              = z.getD (i + 1) 0 + ((j + 1 : ℕ) : ℚ) * eps := by
            rw [← hget]
            exact perturbApply_getD_step_move z eps j hj
          by_cases hprev : ∃ s ∈ stepsOf z, s + 1 = i
          · obtain ⟨s, hs, hsi⟩ := hprev
            obtain ⟨⟨j'', hj''⟩, hget2⟩ := List.mem_iff_get.mp hs
            have hadj : j = j'' + 1 :=
              sorted_adjacent (stepsOf_sorted z) hj'' hj (by rw [hget, hget2, hsi])
            have hzi : (perturbApply z false eps).getD i 0
                = z.getD i 0 + ((j'' + 1 : ℕ) : ℚ) * eps := by
              rw [← hsi, ← hget2]
              exact perturbApply_getD_step_move z eps j'' hj''
            have hcast : ((j + 1 : ℕ) : ℚ) = ((j'' + 1 : ℕ) : ℚ) + 1 := by
              exact_mod_cast congrArg (Nat.cast (R := ℚ)) (by omega : j + 1 = (j'' + 1) + 1)
            rw [hzi, hzi1, heq]
            nlinarith [hcast, heps]
          · push_neg at hprev
            have hzi : (perturbApply z false eps).getD i 0 = z.getD i 0 :=
              perturbApply_getD_move_not_target z eps i hprev
            have hone : (0:ℚ) < ((j + 1 : ℕ) : ℚ) := by
              exact_mod_cast Nat.succ_pos j
            rw [hzi, hzi1, heq]
            nlinarith [heps, hone]
    · have hne : z.getD (i + 1) 0 ≠ z.getD i 0 := by
        intro h
        exact hstep (mem_stepsOf.mpr ⟨hi, h⟩)
      have hg := hgap' i hi hne
      cases kep with
      | true =>
          have hzi : (perturbApply z true eps).getD i 0 = z.getD i 0 :=
            perturbApply_getD_keep_not_step z eps i hstep
          have hlb : z.getD (i + 1) 0 - ((stepsOf z).length : ℚ) * eps
              ≤ (perturbApply z true eps).getD (i + 1) 0 := by
            rcases perturb_cases_keep z eps (i + 1) with h | ⟨j', hj', _, hval⟩
            · rw [h]
              linarith
            · rw [hval]
              have hle : (((stepsOf z).length - j' : ℕ) : ℚ) ≤ ((stepsOf z).length : ℚ) :=
                Nat.cast_le.mpr (Nat.sub_le _ _)
              nlinarith [heps]
          rw [hzi]
          linarith
      | false =>
          have hub : (perturbApply z false eps).getD i 0
              ≤ z.getD i 0 + ((stepsOf z).length : ℚ) * eps := by
            rcases perturb_cases_move z eps i with h | ⟨j'', hj'', _, hval⟩
            · rw [h]
              linarith
            · rw [hval]
              have hle : ((j'' + 1 : ℕ) : ℚ) ≤ ((stepsOf z).length : ℚ) :=
                Nat.cast_le.mpr (by omega)
              nlinarith [heps]
          have hlb : z.getD (i + 1) 0 ≤ (perturbApply z false eps).getD (i + 1) 0 := by
            rcases perturb_cases_move z eps (i + 1) with h | ⟨j', hj', _, hval⟩
            · rw [h]
            · rw [hval]
              have : (0:ℚ) ≤ ((j' + 1 : ℕ) : ℚ) := Nat.cast_nonneg _
              nlinarith [heps]
          linarith
  · intro i
    rcases perturb_target_cases z kep eps i with h | ⟨j, hj, _, hval⟩
    · rw [h, sub_self, abs_zero]
      exact hme
    · rw [hval, add_sub_cancel_left]
      cases kep with
      | true =>
          rw [if_pos rfl, abs_mul, abs_neg, abs_of_pos heps,
              abs_of_nonneg (Nat.cast_nonneg _)]
          exact mul_le_mul_of_nonneg_right (Nat.cast_le.mpr (Nat.sub_le _ _)) heps.le
      | false =>
          rw [if_neg (by simp), abs_mul, abs_of_pos heps,
              abs_of_nonneg (Nat.cast_nonneg _)]
          exact mul_le_mul_of_nonneg_right (Nat.cast_le.mpr (by omega)) heps.le

/-! ### C4: the perturbation offsets -/

/-- Counterexample to C4 as stated: take `x = [0, 1, 1, 1]` (non-decreasing,
duplicate positions at start indices 1 and 2, so `m = 2`),
`keep_end_points = True`, `eps = 1/100`.  The claim's formula says the step
that is 0-indexed-from-the-end `k = 0` (start index 2) receives offset
`(m - k)*eps = 2/100`; the code gives its earlier point `x[2] = 1` an offset
of only `1/100` (result entry `99/100`).  Moreover the later point of the
step at index 1 (namely `x[2]`) is *not* preserved exactly. -/
theorem C4_cex :
    non_decreasing [(0:ℚ), 1, 1, 1] = true ∧
    stepsOf [(0:ℚ), 1, 1, 1] = [1, 2] ∧
    force_strictly_increasing [0, 1, 1, 1] [0, 1, 2, 3] true (1/100)
      = Except.ok ([0, 49/50, 99/100, 1], [0, 1, 2, 3]) ∧
    (1 : ℚ) - 99/100 = 1/100 ∧ ((1 : ℚ)/100 ≠ (2 - 0) * (1/100)) := by
  have hx : npdiff [(0:ℚ), 1, 1, 1] = [1, 0, 0] := by norm_num [npdiff]
  have hsteps : stepsOf [(0:ℚ), 1, 1, 1] = [1, 2] := by
    rw [stepsOf, hx]
    decide
  have hsi : strictly_increasing [(0:ℚ), 1, 1, 1] = false := by
    norm_num [strictly_increasing, hx]
  have hsd : strictly_decreasing [(0:ℚ), 1, 1, 1] = false := by
    norm_num [strictly_decreasing, hx]
  have hni : non_increasing [(0:ℚ), 1, 1, 1] = false := by
    norm_num [non_increasing, hx]
  have hnd : non_decreasing [(0:ℚ), 1, 1, 1] = true := by
    norm_num [non_decreasing, hx]
  refine ⟨hnd, hsteps, ?_, by norm_num, by norm_num⟩
  rw [force_strictly_increasing, if_neg (by rw [hsi]; simp), if_neg (by rw [hsd]; simp)]
  simp only [hni, Bool.false_eq_true, if_false, hnd, if_true]
  rw [perturbApply, hsteps]
  have hdx : dxFor true 2 (1/100 : ℚ) = [-1/50, -1/100] := by
    rw [dxFor, if_pos rfl, show List.range 2 = [0, 1] by decide]
    norm_num
  rw [show ([1, 2] : List ℕ).length = 2 by decide, hdx]
  norm_num [applyUpdates, List.zip, List.zipWith, List.foldl, List.set,
    List.getD_eq_getElem?_getD]

/-- C4 (amended): for any `x` reaching the perturbation stage (here: `x`
non-decreasing, not non-increasing, with at least one duplicate position),
the perturbation offsets are multiples of `eps` decreasing in magnitude
from the first duplicate position to the last, for both values of
`keep_end_points`: the step that is `j`-th 0-indexed **from the start**
(equivalently, `k`-th from the end with `k = m-1-j`) has offset
`(m - j)*eps = (k + 1)*eps` subtracted from its earlier point when
`keep_end_points` is true, and offset `(j + 1)*eps` added to its later
point otherwise; every index that is not a targeted point keeps its value
(in particular the final point when `keep_end_points`, the first point
otherwise). -/
theorem C4_perturbation_offsets (x y : List ℚ) (kep : Bool) (eps : ℚ)
    (hnd : non_decreasing x = true) (hni : non_increasing x = false)
    (hst : has_steps x = true) :
    force_strictly_increasing x y kep eps = Except.ok (perturbApply x kep eps, y) ∧
    (∀ j, ∀ hj : j < (stepsOf x).length,
        (perturbApply x kep eps).getD ((stepsOf x).get ⟨j, hj⟩ + (if kep then 0 else 1)) 0
          = x.getD ((stepsOf x).get ⟨j, hj⟩ + (if kep then 0 else 1)) 0
            + (if kep then (((stepsOf x).length - j : ℕ) : ℚ) * (-eps)
               else ((j + 1 : ℕ) : ℚ) * eps)) ∧
    (∀ i, (∀ s ∈ stepsOf x, s + (if kep then 0 else 1) ≠ i) →
        (perturbApply x kep eps).getD i 0 = x.getD i 0) := by
  obtain ⟨d0, hd0mem, hd00⟩ := has_steps_iff.mp hst
  have hsi : ¬ strictly_increasing x = true := by
    intro hsi
    have h := strictly_increasing_iff.mp hsi _ hd0mem
    rw [hd00] at h
    exact lt_irrefl 0 h
  have hsd : ¬ strictly_decreasing x = true := by
    intro hsd
    have h := strictly_decreasing_iff.mp hsd _ hd0mem
    rw [hd00] at h
    exact lt_irrefl 0 h
  refine ⟨?_, fun j hj => perturbApply_getD_target x kep eps j hj,
      fun i h => perturbApply_getD_not_target x kep eps i h⟩
  rw [force_strictly_increasing, if_neg hsi, if_neg hsd]
  simp only [hni, Bool.false_eq_true, if_false, hnd, if_true]

/-- Witness for C4's amended theorem at `x = [0, 0, 1]`, `y = [5, 6, 7]`,
`keep_end_points = True`, `eps = 1`. -/
theorem C4_witness :
    force_strictly_increasing [(0:ℚ), 0, 1] [(5:ℚ), 6, 7] true 1
      = Except.ok (perturbApply [(0:ℚ), 0, 1] true 1, [(5:ℚ), 6, 7]) ∧
    (∀ j, ∀ hj : j < (stepsOf [(0:ℚ), 0, 1]).length,
        (perturbApply [(0:ℚ), 0, 1] true 1).getD
            ((stepsOf [(0:ℚ), 0, 1]).get ⟨j, hj⟩ + (if true then 0 else 1)) 0
          = [(0:ℚ), 0, 1].getD
              ((stepsOf [(0:ℚ), 0, 1]).get ⟨j, hj⟩ + (if true then 0 else 1)) 0
            + (if true then (((stepsOf [(0:ℚ), 0, 1]).length - j : ℕ) : ℚ) * (-1)
               else ((j + 1 : ℕ) : ℚ) * 1)) ∧
    (∀ i, (∀ s ∈ stepsOf [(0:ℚ), 0, 1], s + (if true then 0 else 1) ≠ i) →
        (perturbApply [(0:ℚ), 0, 1] true 1).getD i 0 = [(0:ℚ), 0, 1].getD i 0) :=
  C4_perturbation_offsets [0, 0, 1] [5, 6, 7] true 1
    (by norm_num [non_decreasing, npdiff])
    (by norm_num [non_increasing, npdiff])
    (by norm_num [has_steps, npdiff])

/-! ### C5: the guarantees of `force_strictly_increasing` -/

/-- C5: for monotonic `x` of length ≥ 2 and `eps > 0` with
`(step count) * eps` below every nonzero gap of `x`, the sanitizer
succeeds, its first output is strictly increasing and within
`(step count) * eps` of the (possibly reversed) original `x`, and `y` is
returned unchanged except for the reversal in the strictly-decreasing and
non-increasing cases (`canonY`). -/
theorem C5_force_strictly_increasing_guarantees (x y : List ℚ) (kep : Bool) (eps : ℚ)
    (h2 : 2 ≤ x.length)
    (hmono : non_increasing x = true ∨ non_decreasing x = true)
    (heps : 0 < eps)
    (hgap : ∀ d ∈ npdiff x, d ≠ 0 → ((stepsOf (canonX x)).length : ℚ) * eps < |d|) :
    ∃ x', force_strictly_increasing x y kep eps = Except.ok (x', canonY x y) ∧
      strictly_increasing x' = true ∧
      ∀ i, |x'.getD i 0 - (canonX x).getD i 0|
          ≤ ((stepsOf (canonX x)).length : ℚ) * eps := by
  have hme : (0:ℚ) ≤ ((stepsOf (canonX x)).length : ℚ) * eps :=
    mul_nonneg (Nat.cast_nonneg _) heps.le
  by_cases hsi : strictly_increasing x = true
  · refine ⟨x, ?_, hsi, ?_⟩
    · rw [force_strictly_increasing, if_pos hsi, canonY, if_pos hsi]
    · intro i
      rw [canonX, if_pos hsi, sub_self, abs_zero]
      exact mul_nonneg (Nat.cast_nonneg _) heps.le
  · by_cases hsd : strictly_decreasing x = true
    · have hni : non_increasing x = true := by
        rw [non_increasing_iff]
        intro d hd
        exact (strictly_decreasing_iff.mp hsd _ hd).le
      refine ⟨x.reverse, ?_, strictly_increasing_reverse hsd, ?_⟩
      · rw [force_strictly_increasing, if_neg hsi, if_pos hsd, canonY, if_neg hsi,
          if_pos hni]
      · intro i
        rw [canonX, if_neg hsi, if_pos hni, sub_self, abs_zero]
        exact mul_nonneg (Nat.cast_nonneg _) heps.le
    · by_cases hni : non_increasing x = true
      · have hcx : canonX x = x.reverse := by rw [canonX, if_neg hsi, if_pos hni]
        have hndr : non_decreasing x.reverse = true := non_decreasing_reverse hni
        have hgapr : ∀ d ∈ npdiff x.reverse, d ≠ 0 →
            ((stepsOf x.reverse).length : ℚ) * eps < |d| := by
          intro d hd hdne
          have h := hgap (-d) (mem_npdiff_reverse.mp hd) (neg_ne_zero.mpr hdne)
          rwa [abs_neg, hcx] at h
        obtain ⟨hstrict, hbound⟩ :=
          perturb_strict_and_bound x.reverse kep eps hndr heps hgapr
        refine ⟨perturbApply x.reverse kep eps, ?_, hstrict, ?_⟩
        · rw [force_strictly_increasing, if_neg hsi, if_neg hsd]
          simp only [hni, if_true, hndr, canonY, if_neg hsi]
        · intro i
          rw [hcx]
          exact hbound i
      · have hnd : non_decreasing x = true := hmono.resolve_left hni
        have hcx : canonX x = x := by rw [canonX, if_neg hsi, if_neg hni]
        have hgapx : ∀ d ∈ npdiff x, d ≠ 0 → ((stepsOf x).length : ℚ) * eps < |d| := by
          intro d hd hdne
          have h := hgap d hd hdne
          rwa [hcx] at h
        obtain ⟨hstrict, hbound⟩ := perturb_strict_and_bound x kep eps hnd heps hgapx
        refine ⟨perturbApply x kep eps, ?_, hstrict, ?_⟩
        · rw [force_strictly_increasing, if_neg hsi, if_neg hsd]
          simp only [Bool.not_eq_true] at hni
          simp only [hni, Bool.false_eq_true, if_false, hnd, if_true, canonY,
            if_neg hsi]
        · intro i
          rw [hcx]
          exact hbound i

/-- Witness for C5 at `x = [0, 0, 1]`, `y = [7, 8, 9]`,
`keep_end_points = True`, `eps = 1/10`. -/
theorem C5_witness :
    ∃ x', force_strictly_increasing [(0:ℚ), 0, 1] [(7:ℚ), 8, 9] true (1/10)
        = Except.ok (x', canonY [(0:ℚ), 0, 1] [(7:ℚ), 8, 9]) ∧
      strictly_increasing x' = true ∧
      ∀ i, |x'.getD i 0 - (canonX [(0:ℚ), 0, 1]).getD i 0|
          ≤ ((stepsOf (canonX [(0:ℚ), 0, 1])).length : ℚ) * (1/10) :=
  C5_force_strictly_increasing_guarantees [0, 0, 1] [7, 8, 9] true (1/10)
    (by decide)
    (Or.inr (by norm_num [non_decreasing, npdiff]))
    (by norm_num)
    (by
      intro d hd hdne
      have hx : npdiff [(0:ℚ), 0, 1] = [0, 1] := by norm_num [npdiff]
      have hsi : ¬ strictly_increasing [(0:ℚ), 0, 1] = true := by
        norm_num [strictly_increasing, hx]
      have hni : ¬ non_increasing [(0:ℚ), 0, 1] = true := by
        norm_num [non_increasing, hx]
      have hcx : canonX [(0:ℚ), 0, 1] = [0, 0, 1] := by
        rw [canonX, if_neg hsi, if_neg hni]
      have hsteps : stepsOf [(0:ℚ), 0, 1] = [0] := by
        rw [stepsOf, hx]
        decide
      rw [hx] at hd
      rw [hcx, hsteps]
      rcases List.mem_cons.mp hd with rfl | hd1
      · exact absurd rfl hdne
      · rcases List.mem_cons.mp hd1 with rfl | hd2
        · norm_num
        · exact absurd hd2 (List.not_mem_nil d))

end Piecewise
